import Mathlib

/-!
# Verification of the LittleSleeper audio server core

A shallow embedding of `audio_server.py`: the capture loop's peak-amplitude
reduction and ring-buffer append (`process_audio`, lines 32-50), and the
request handler's segmentation pipeline (`process_requests`, lines 78-179).
Machine floats (`float64` timestamps, `float32` normalized amplitudes) are
modelled as rationals; `int16` audio samples as integers with explicit 16-bit
wraparound where numpy wraps.
-/

/-! ## Capture loop: peak amplitude (process_audio, lines 32-47) -/

/-- Wrap an integer into the signed 16-bit range, the way numpy int16
arithmetic overflows. -/
def int16_wrap (x : ℤ) : ℤ := (x + 32768) % 65536 - 32768

/-- `np.abs` on an int16 value: the true absolute value, wrapped back into
int16 (so `abs16 (-32768) = -32768`). -/
def abs16 (x : ℤ) : ℤ := int16_wrap |x|

/-- `np.max` over a 1-d array: `none` on an empty array (numpy raises). -/
def npMax : List ℤ → Option ℤ
  | [] => none
  | x :: xs => some (xs.foldl max x)

/-- Line 44: `np.abs(audio).max()` — the per-window value stored in the
ring buffer's audio array. -/
def peakAmplitude (window : List ℤ) : Option ℤ := npMax (window.map abs16)

/-! ## Ring buffer (shared_time / shared_audio / shared_pos) -/

/-- The shared state of `audio_server.py`: the timestamp array, the peak
amplitude array and the write cursor (`shared_time`, `shared_audio`,
`shared_pos`). The arrays are total functions; only indices below the
capacity are ever read or written. -/
structure RBState where
  time : Nat → ℚ
  audio : Nat → ℤ
  pos : Nat

/-- The freshly initialised buffer: `mp.Array` zero-fills both arrays and
the cursor starts at 0 (lines 188-190). A timestamp of 0 is the sentinel
for "slot never written". -/
def rbInit : RBState := ⟨fun _ => 0, fun _ => 0, 0⟩

/-- One capture iteration's critical section (lines 41-47):
`shared_time[pos] = t`, `shared_audio[pos] = a`,
`pos = (pos + 1) % len(shared_time)`. -/
def rbAppend (cap : Nat) (st : RBState) (sample : ℚ × ℤ) : RBState :=
  { time := Function.update st.time st.pos sample.1
    audio := Function.update st.audio st.pos sample.2
    pos := (st.pos + 1) % cap }

/-- Appending a whole list of samples in order. -/
def rbAppendAll (cap : Nat) (st : RBState) (ss : List (ℚ × ℤ)) : RBState :=
  ss.foldl (rbAppend cap) st

/-- `np.roll(arr, shift)` on a length-`n` array viewed as a function:
element `i` of the rolled array is element `(i - shift) mod n` of the
original. Lines 97-98 roll by `buffer_len - current_pos`. -/
def npRoll {α : Type} (n shift : Nat) (f : Nat → α) : Nat → α :=
  fun i => f ((i + (n - shift % n)) % n)

/-! ## Request handler data (process_requests, lines 78-179) -/

/-- The four analysis parameters read out of the request mapping. -/
structure Params where
  upper_limit : ℚ
  noise_threshold : ℚ
  min_quiet_time : ℚ
  min_noise_time : ℚ
  deriving DecidableEq

/-- The ways the handler body can raise: a missing request key
(`parameters[...]`, KeyError) or an out-of-range array index
(`time_stamps[0]` on an empty array, IndexError). Either exception is
uncaught and terminates the serving loop. -/
inductive SegError where
  | keyError : SegError
  | indexError : SegError
  deriving DecidableEq

/-- `format_time_difference` (lines 59-62): the Python renders the
timedelta `time2 - time1` as text and drops fractional seconds. No claim
depends on the exact rendering, so the model renders the numeric
difference directly; what matters is that the result is appended to a
non-empty prefix. -/
def format_time_difference (time1 time2 : ℚ) : String := toString (time2 - time1)

/-- One entry of `crying_blocks` (lines 154-157): start / stop timestamps
and the formatted duration. (`start_str` is presentation-only datetime
formatting and is not modelled.) -/
structure CryingBlock where
  start : ℚ
  stop : ℚ
  duration : String
  deriving DecidableEq

/-- The analysis part of the response (lines 174-177). `audio_plot`
(floating-point Gaussian smoothing + linear interpolation, lines 104-111)
carries no claim and is not modelled. -/
structure SegResult where
  crying_blocks : List CryingBlock
  time_crying : String
  time_quiet : String
  deriving DecidableEq

deriving instance DecidableEq for Except

/-! ## Segmentation steps (lines 113-157) -/

/-- Lines 114-115: keep the timestamps whose slot has been written
(`time_stamps > 0`). -/
def keptTimes (ts vs : List ℚ) : List ℚ :=
  ((ts.zip vs).filter fun q => decide (0 < q.1)).map Prod.fst

/-- Lines 114-116: the amplitude values at the kept positions. -/
def keptVals (ts vs : List ℚ) : List ℚ :=
  ((ts.zip vs).filter fun q => decide (0 < q.1)).map Prod.snd

/-- Line 121: `noise = audio_signal > noise_threshold`. -/
def noiseMask (vs : List ℚ) (thr : ℚ) : List Bool :=
  vs.map fun v => decide (thr < v)

/-- Line 122: `silent = audio_signal < noise_threshold`. -/
def silentMask (vs : List ℚ) (thr : ℚ) : List Bool :=
  vs.map fun v => decide (v < thr)

/-- Worker for `trueRuns`: scan the list left to right carrying the
current index and the start of the open run of `true`s, if any. -/
def trueRunsGo : List Bool → Nat → Option Nat → List (Nat × Nat)
  | [], _, none => []
  | [], i, some s => [(s, i)]
  | b :: rest, i, none =>
      if b then trueRunsGo rest (i + 1) (some i) else trueRunsGo rest (i + 1) none
  | b :: rest, i, some s =>
      if b then trueRunsGo rest (i + 1) (some s)
      else (s, i) :: trueRunsGo rest (i + 1) none

/-- `ndimage.label` followed by `ndimage.find_objects` on a 1-d boolean
array (lines 127-128, 142-143): the maximal runs of `true`, in order, as
half-open index ranges `(start, stop)`. -/
def trueRuns (l : List Bool) : List (Nat × Nat) := trueRunsGo l 0 none

/-- Line 139: `noise[start:stop] = True` — set the half-open index range
`[s, t)` of a boolean list to `true`. -/
def setRange : List Bool → Nat → Nat → List Bool
  | [], _, _ => []
  | b :: rest, s, t =>
      (if s = 0 ∧ 0 < t then true else b) :: setRange rest (s - 1) (t - 1)

/-- One iteration of the merge loop (lines 129-139): skip a silence run
starting at index 0; otherwise, if its time extent
`time_stamps[stop-1] - time_stamps[start]` is below `min_quiet_time`,
reclassify the whole run as noise. -/
def mergeStep (ts2 : List ℚ) (mq : ℚ) (n : List Bool) (r : Nat × Nat) : List Bool :=
  if r.1 = 0 then n
  else if ts2.getD (r.2 - 1) 0 - ts2.getD r.1 0 < mq then setRange n r.1 r.2
  else n

/-- The whole merge loop (lines 124-139), folded over the silence runs. -/
def mergeQuiet (n : List Bool) (rs : List (Nat × Nat)) (ts2 : List ℚ) (mq : ℚ) : List Bool :=
  rs.foldl (mergeStep ts2 mq) n

/-- The noise mask after merging short silence runs (lines 121-139). -/
def mergedNoise (vals ts2 : List ℚ) (thr mq : ℚ) : List Bool :=
  mergeQuiet (noiseMask vals thr) (trueRuns (silentMask vals thr)) ts2 mq

/-- Lines 145-146 and 154-157: the block recorded for a noise run — start
timestamp, stop timestamp (`time_stamps[stop-1]`) and formatted duration. -/
def blockOfRun (ts2 : List ℚ) (r : Nat × Nat) : CryingBlock :=
  { start := ts2.getD r.1 0
    stop := ts2.getD (r.2 - 1) 0
    duration := format_time_difference (ts2.getD r.1 0) (ts2.getD (r.2 - 1) 0) }

/-- Lines 144-157: walk the noise runs, drop any whose duration is below
`min_noise_time`, and record a block for each of the rest. -/
def extractBlocks (rs : List (Nat × Nat)) (ts2 : List ℚ) (mn : ℚ) : List CryingBlock :=
  rs.filterMap fun r =>
    if ts2.getD (r.2 - 1) 0 - ts2.getD r.1 0 < mn then none
    else some (blockOfRun ts2 r)

/-- Lines 159-171: decide the current state from the retained blocks.
Returns the `(time_crying, time_quiet)` pair; with no blocks and no
retained timestamp this is the `time_stamps[0]` IndexError. `now` is
`time.time()` at line 160. -/
def currentState (cblocks : List CryingBlock) (ts2 : List ℚ) (mq now : ℚ) :
    Except SegError (String × String) :=
  match cblocks.getLast? with
  | none =>
      match ts2.head? with
      | none => Except.error SegError.indexError
      | some t0 => Except.ok ("", "Baby quiet for " ++ format_time_difference t0 now)
  | some last =>
      if now - last.stop < mq then
        Except.ok ("Baby noise for " ++ format_time_difference last.start now, "")
      else
        Except.ok ("", "Baby quiet for " ++ format_time_difference last.stop now)

/-- Lines 113-177 of `process_requests`: the segmentation pipeline from
the sentinel filter onwards. `ts` are the rolled timestamps, `vs` the
rolled, normalised and smoothed amplitude signal. -/
def classifySegment (ts vs : List ℚ) (p : Params) (now : ℚ) : Except SegError SegResult :=
  let vals := keptVals ts vs
  let ts2 := keptTimes ts vs
  let noise := noiseMask vals p.noise_threshold
  let cblocks :=
    if noise.any id then
      extractBlocks (trueRuns (mergedNoise vals ts2 p.noise_threshold p.min_quiet_time))
        ts2 p.min_noise_time
    else []
  match currentState cblocks ts2 p.min_quiet_time now with
  | Except.error e => Except.error e
  | Except.ok tq => Except.ok ⟨cblocks, tq.1, tq.2⟩

/-- The request mapping accesses `parameters['upper_limit']` (line 101),
`parameters['noise_threshold']` (lines 121-122), `parameters['min_quiet_time']`
(lines 138, 168) and `parameters['min_noise_time']` (line 150). A request is
a partial mapping from key to value; a missing key is an uncaught KeyError. -/
def lookupParams (req : String → Option ℚ) : Except SegError Params :=
  match req ("upper_limit"), req ("noise_threshold"),
        req ("min_quiet_time"), req ("min_noise_time") with
  | some u, some nt, some mq, some mn => Except.ok ⟨u, nt, mq, mn⟩
  | _, _, _, _ => Except.error SegError.keyError

/-- One pass of the body of the serving loop (lines 82-179): read the
parameters, normalise the rolled signal by `upper_limit` (line 101),
smooth it (line 105, floating-point Gaussian filter, abstracted as the
function argument `smooth`), then segment. `ts` and `rawAudio` are the
already-rolled snapshot arrays. -/
def handleRequest (smooth : List ℚ → List ℚ) (ts rawAudio : List ℚ) (now : ℚ)
    (req : String → Option ℚ) : Except SegError SegResult :=
  match lookupParams req with
  | Except.error e => Except.error e
  | Except.ok p => classifySegment ts (smooth (rawAudio.map fun a => a / p.upper_limit)) p now

/-- The `while True` serving loop (lines 78-179): handle requests in
order; an uncaught exception exits the loop, so every later request goes
unserved. Returns the responses actually sent and the exception that
killed the loop, if any. -/
def serveLoop (smooth : List ℚ → List ℚ) (ts rawAudio : List ℚ) (now : ℚ) :
    List (String → Option ℚ) → List SegResult × Option SegError
  | [] => ([], none)
  | r :: rs =>
      match handleRequest smooth ts rawAudio now r with
      | Except.error e => ([], some e)
      | Except.ok res =>
          let rest := serveLoop smooth ts rawAudio now rs
          (res :: rest.1, rest.2)

/-! ## Properties of trueRuns -/

/-- The runs list is strictly ordered: every run starts at or after `lo`,
is non-empty, and ends before the next run starts. -/
def RunsOrdered : Nat → List (Nat × Nat) → Prop
  | _, [] => True
  | lo, r :: rest => lo ≤ r.1 ∧ r.1 < r.2 ∧ RunsOrdered r.2 rest

theorem runsOrdered_mono {lo lo' : Nat} {rs : List (Nat × Nat)}
    (h : lo ≤ lo') (ho : RunsOrdered lo' rs) : RunsOrdered lo rs := by
  cases rs with
  | nil => trivial
  | cons r rest =>
      simp only [RunsOrdered] at ho ⊢
      exact ⟨le_trans h ho.1, ho.2.1, ho.2.2⟩

theorem trueRunsGo_ordered (l : List Bool) : ∀ i : Nat,
    RunsOrdered i (trueRunsGo l i none) ∧
    ∀ s0 : Nat, s0 < i → RunsOrdered s0 (trueRunsGo l i (some s0)) := by
  induction l with
  | nil =>
      intro i
      refine ⟨trivial, fun s0 h => ?_⟩
      simp only [trueRunsGo, RunsOrdered]
      exact ⟨le_refl s0, h, trivial⟩
  | cons b rest ih =>
      intro i
      constructor
      · by_cases hb : b = true
        · simp only [trueRunsGo, hb, if_true]
          exact (ih (i + 1)).2 i (Nat.lt_succ_self i)
        · simp only [trueRunsGo, hb, if_false]
          exact runsOrdered_mono (Nat.le_succ i) (ih (i + 1)).1
      · intro s0 hs0
        by_cases hb : b = true
        · simp only [trueRunsGo, hb, if_true]
          exact (ih (i + 1)).2 s0 (by omega)
        · simp only [trueRunsGo, hb, if_false, RunsOrdered]
          exact ⟨le_refl s0, hs0, runsOrdered_mono (Nat.le_succ i) (ih (i + 1)).1⟩

theorem runsOrdered_mem {lo : Nat} {rs : List (Nat × Nat)}
    (ho : RunsOrdered lo rs) {r : Nat × Nat} (hm : r ∈ rs) : lo ≤ r.1 ∧ r.1 < r.2 := by
  induction rs generalizing lo with
  | nil => cases hm
  | cons r0 rest ih =>
      simp only [RunsOrdered] at ho
      rcases List.mem_cons.mp hm with h | h
      · subst h; exact ⟨ho.1, ho.2.1⟩
      · have h2 := ih ho.2.2 h
        exact ⟨by omega, h2.2⟩

theorem runsOrdered_unique {lo : Nat} {rs : List (Nat × Nat)}
    (ho : RunsOrdered lo rs) {r q : Nat × Nat} {i : Nat}
    (h1 : r ∈ rs) (h2 : q ∈ rs) (hr1 : r.1 ≤ i) (hr2 : i < r.2)
    (hq1 : q.1 ≤ i) (hq2 : i < q.2) : r = q := by
  induction rs generalizing lo with
  | nil => cases h1
  | cons r0 rest ih =>
      simp only [RunsOrdered] at ho
      rcases List.mem_cons.mp h1 with e1 | e1 <;> rcases List.mem_cons.mp h2 with e2 | e2
      · exact e1.trans e2.symm
      · exfalso
        have h3 := (runsOrdered_mem ho.2.2 e2).1
        rw [← e1] at h3
        omega
      · exfalso
        have h3 := (runsOrdered_mem ho.2.2 e1).1
        rw [← e2] at h3
        omega
      · exact ih ho.2.2 e1 e2

theorem trueRuns_ordered (l : List Bool) : RunsOrdered 0 (trueRuns l) :=
  (trueRunsGo_ordered l 0).1

theorem trueRunsGo_stop_le (l : List Bool) : ∀ (i : Nat) (acc : Option Nat) (r : Nat × Nat),
    r ∈ trueRunsGo l i acc → r.2 ≤ i + l.length := by
  induction l with
  | nil =>
      intro i acc r hr
      cases acc with
      | none => simp [trueRunsGo] at hr
      | some s =>
          simp only [trueRunsGo, List.mem_singleton] at hr
          simp [hr]
  | cons b rest ih =>
      intro i acc r hr
      cases acc with
      | none =>
          by_cases hb : b = true
          · simp only [trueRunsGo, hb, if_true] at hr
            have := ih (i + 1) (some i) r hr
            simpa [Nat.add_comm, Nat.add_left_comm] using this
          · simp only [trueRunsGo, hb, if_false] at hr
            have := ih (i + 1) none r hr
            simp only [List.length_cons]
            omega
      | some s =>
          by_cases hb : b = true
          · simp only [trueRunsGo, hb, if_true] at hr
            have := ih (i + 1) (some s) r hr
            simp only [List.length_cons]
            omega
          · simp only [trueRunsGo, hb, Bool.false_eq_true, if_false, List.mem_cons] at hr
            rcases hr with he | hm
            · rw [he]
              simp only [List.length_cons]
              exact Nat.le_add_right _ _
            · have := ih (i + 1) none _ hm
              simp only [List.length_cons]
              omega

theorem trueRuns_stop_le {l : List Bool} {r : Nat × Nat} (hr : r ∈ trueRuns l) :
    r.2 ≤ l.length := by
  simpa using trueRunsGo_stop_le l 0 none r hr

theorem trueRunsGo_mem_true (l : List Bool) : ∀ (i : Nat) (acc : Option Nat) (r : Nat × Nat),
    r ∈ trueRunsGo l i acc →
    ∀ j, i ≤ j → r.1 ≤ j → j < r.2 → l.getD (j - i) false = true := by
  induction l with
  | nil =>
      intro i acc r hr j hij _ hjr
      cases acc with
      | none => simp [trueRunsGo] at hr
      | some s =>
          simp only [trueRunsGo, List.mem_singleton] at hr
          rw [hr] at hjr
          exfalso
          exact absurd hij (by omega)
  | cons b rest ih =>
      intro i acc r hr j hij hrj hjr
      by_cases hb : b = true
      · rcases Nat.eq_or_lt_of_le hij with he | hlt
        · have h0 : j - i = 0 := by omega
          rw [h0]
          simpa using hb
        · have h1 : j - i = (j - (i + 1)) + 1 := by omega
          rw [h1, List.getD_cons_succ]
          cases acc with
          | none =>
              simp only [trueRunsGo, hb, if_true] at hr
              exact ih (i + 1) (some i) r hr j (by omega) hrj hjr
          | some s =>
              simp only [trueRunsGo, hb, if_true] at hr
              exact ih (i + 1) (some s) r hr j (by omega) hrj hjr
      · cases acc with
        | none =>
            simp only [trueRunsGo, hb, if_false] at hr
            have hge := (runsOrdered_mem (trueRunsGo_ordered rest (i + 1)).1 hr).1
            have h1 : j - i = (j - (i + 1)) + 1 := by omega
            rw [h1, List.getD_cons_succ]
            exact ih (i + 1) none r hr j (by omega) hrj hjr
        | some s =>
            simp only [trueRunsGo, hb, Bool.false_eq_true, if_false, List.mem_cons] at hr
            rcases hr with he | hm
            · have hji : j < i := by rw [he] at hjr; exact hjr
              exact absurd hij (by omega)
            · have hge := (runsOrdered_mem (trueRunsGo_ordered rest (i + 1)).1 hm).1
              have h1 : j - i = (j - (i + 1)) + 1 := by omega
              rw [h1, List.getD_cons_succ]
              exact ih (i + 1) none r hm j (by omega) hrj hjr

theorem trueRuns_mem_true {l : List Bool} {r : Nat × Nat} (hr : r ∈ trueRuns l)
    {j : Nat} (h1 : r.1 ≤ j) (h2 : j < r.2) : l.getD j false = true := by
  simpa using trueRunsGo_mem_true l 0 none r hr j (Nat.zero_le j) h1 h2

/-! ## Properties of setRange and the merge fold -/

theorem setRange_length : ∀ (l : List Bool) (s t : Nat),
    (setRange l s t).length = l.length := by
  intro l
  induction l with
  | nil => intro s t; rfl
  | cons b rest ih => intro s t; simp [setRange, ih]

theorem setRange_getD : ∀ (l : List Bool) (s t i : Nat),
    (setRange l s t).getD i false =
      if s ≤ i ∧ i < t ∧ i < l.length then true else l.getD i false := by
  intro l
  induction l with
  | nil =>
      intro s t i
      simp [setRange]
  | cons b rest ih =>
      intro s t i
      cases i with
      | zero =>
          simp only [setRange, List.getD_cons_zero, List.length_cons]
          by_cases hs : s = 0 <;> by_cases ht : 0 < t <;>
            simp [hs, ht]
      | succ i' =>
          simp only [setRange, List.getD_cons_succ, List.length_cons]
          rw [ih (s - 1) (t - 1) i']
          have hiff : (s - 1 ≤ i' ∧ i' < t - 1 ∧ i' < rest.length) ↔
              (s ≤ i' + 1 ∧ i' + 1 < t ∧ i' + 1 < rest.length + 1) := by omega
          simp only [hiff]

theorem mergeStep_length (ts2 : List ℚ) (mq : ℚ) (n : List Bool) (r : Nat × Nat) :
    (mergeStep ts2 mq n r).length = n.length := by
  unfold mergeStep
  split_ifs <;> simp [setRange_length]

theorem mergeStep_true {ts2 : List ℚ} {mq : ℚ} {n : List Bool} {r : Nat × Nat} {i : Nat}
    (h : n.getD i false = true) : (mergeStep ts2 mq n r).getD i false = true := by
  unfold mergeStep
  split_ifs with h1 h2
  · exact h
  · rw [setRange_getD]
    split_ifs with h3
    · rfl
    · exact h
  · exact h

theorem mergeQuiet_true_of {ts2 : List ℚ} {mq : ℚ} {i : Nat} :
    ∀ (rs : List (Nat × Nat)) (n : List Bool), n.getD i false = true →
      (mergeQuiet n rs ts2 mq).getD i false = true := by
  intro rs
  induction rs with
  | nil => intro n h; exact h
  | cons r0 rest ih =>
      intro n h
      exact ih (mergeStep ts2 mq n r0) (mergeStep_true h)

theorem mergeQuiet_sets {ts2 : List ℚ} {mq : ℚ} {i : Nat} :
    ∀ (rs : List (Nat × Nat)) (n : List Bool) (r : Nat × Nat), r ∈ rs → r.1 ≠ 0 →
      ts2.getD (r.2 - 1) 0 - ts2.getD r.1 0 < mq → r.1 ≤ i → i < r.2 → i < n.length →
      (mergeQuiet n rs ts2 mq).getD i false = true := by
  intro rs
  induction rs with
  | nil => intro n r hr; cases hr
  | cons r0 rest ih =>
      intro n r hr hne hlt h1 h2 hlen
      rcases List.mem_cons.mp hr with he | hm
      · subst he
        apply mergeQuiet_true_of rest
        unfold mergeStep
        rw [if_neg hne, if_pos hlt, setRange_getD, if_pos ⟨h1, h2, hlen⟩]
      · exact ih (mergeStep ts2 mq n r0) r hm hne hlt h1 h2
          (by rw [mergeStep_length]; exact hlen)

theorem mergeQuiet_untouched {ts2 : List ℚ} {mq : ℚ} {i : Nat} :
    ∀ (rs : List (Nat × Nat)) (n : List Bool),
      (∀ r ∈ rs, r.1 ≤ i → i < r.2 →
        r.1 = 0 ∨ ¬(ts2.getD (r.2 - 1) 0 - ts2.getD r.1 0 < mq)) →
      (mergeQuiet n rs ts2 mq).getD i false = n.getD i false := by
  intro rs
  induction rs with
  | nil => intro n _; rfl
  | cons r0 rest ih =>
      intro n h
      have hstep : (mergeStep ts2 mq n r0).getD i false = n.getD i false := by
        unfold mergeStep
        split_ifs with h1 h2
        · rfl
        · rw [setRange_getD]
          split_ifs with h3
          · rcases h r0 (List.mem_cons_self r0 rest) h3.1 h3.2.1 with h4 | h4
            · exact absurd h4 h1
            · exact absurd h2 h4
          · rfl
        · rfl
      have htail := ih (mergeStep ts2 mq n r0)
        (fun r hr => h r (List.mem_cons_of_mem r0 hr))
      calc (mergeQuiet n (r0 :: rest) ts2 mq).getD i false
          = (mergeQuiet (mergeStep ts2 mq n r0) rest ts2 mq).getD i false := rfl
        _ = (mergeStep ts2 mq n r0).getD i false := htail
        _ = n.getD i false := hstep

/-! ## Properties of the classification masks -/

theorem noiseMask_length (vs : List ℚ) (thr : ℚ) : (noiseMask vs thr).length = vs.length := by
  simp [noiseMask]

theorem silentMask_length (vs : List ℚ) (thr : ℚ) : (silentMask vs thr).length = vs.length := by
  simp [silentMask]

theorem noiseMask_getD_false_of {vs : List ℚ} {thr : ℚ} {i : Nat}
    (h : (silentMask vs thr).getD i false = true) :
    (noiseMask vs thr).getD i false = false := by
  unfold silentMask at h
  unfold noiseMask
  rw [List.getD_eq_getElem?_getD, List.getElem?_map] at h ⊢
  cases hv : vs[i]? with
  | none => rw [hv] at h; simp at h
  | some v =>
      rw [hv] at h
      simp only [Option.map_some', Option.getD_some, decide_eq_true_eq] at h
      simp only [Option.map_some', Option.getD_some]
      exact decide_eq_false (not_lt.mpr (le_of_lt h))

/-! ## Claim C1: the merge rule -/

/-- C1: In the merge step, a maximal silence run `r` that does not start at
index 0 is reclassified as loud on all its indices when its time extent
`time_stamps[stop-1] - time_stamps[start]` is strictly below `min_quiet_time`
(so the surrounding noise becomes one merged block over the run), and is left
quiet (all its indices stay non-loud, keeping the surrounding noise blocks
separate) when the extent is at least `min_quiet_time`. -/
theorem merge_rule_short_quiet_gap (vals ts2 : List ℚ) (thr mq : ℚ) (r : Nat × Nat)
    (hmem : r ∈ trueRuns (silentMask vals thr)) (hs : r.1 ≠ 0) :
    ((ts2.getD (r.2 - 1) 0 - ts2.getD r.1 0 < mq →
      ∀ i, r.1 ≤ i → i < r.2 → (mergedNoise vals ts2 thr mq).getD i false = true)
    ∧ (mq ≤ ts2.getD (r.2 - 1) 0 - ts2.getD r.1 0 →
      ∀ i, r.1 ≤ i → i < r.2 → (mergedNoise vals ts2 thr mq).getD i false = false)) := by
  constructor
  · intro hlt i h1 h2
    unfold mergedNoise
    apply mergeQuiet_sets _ _ r hmem hs hlt h1 h2
    have hstop := trueRuns_stop_le hmem
    have hlen := silentMask_length vals thr
    rw [noiseMask_length]
    omega
  · intro hge i h1 h2
    unfold mergedNoise
    rw [mergeQuiet_untouched]
    · exact noiseMask_getD_false_of (trueRuns_mem_true hmem h1 h2)
    · intro q hq hq1 hq2
      right
      have hqr : q = r :=
        runsOrdered_unique (trueRuns_ordered _) hq hmem hq1 hq2 h1 h2
      rw [hqr]
      exact not_lt.mpr hge

/-- C1 witness: the concrete signal `[1, 0, 1]` with threshold `1/2` has the
silence run `(1, 2)`; with timestamps `[1, 2, 3]` its extent `0` is below
`min_quiet_time = 5`, so index 1 is reclassified as loud. -/
theorem merge_rule_short_quiet_gap_witness :
    (mergedNoise [1, 0, 1] [1, 2, 3] (1/2) 5).getD 1 false = true := by
  have hmask : silentMask [1, 0, 1] (1/2) = [false, true, false] := by
    norm_num [silentMask]
  have hmem : ((1, 2) : Nat × Nat) ∈ trueRuns (silentMask [1, 0, 1] (1/2)) := by
    rw [hmask]; decide
  exact (merge_rule_short_quiet_gap [1, 0, 1] [1, 2, 3] (1/2) 5 (1, 2) hmem
    (by decide)).1 (by norm_num) 1 (le_refl 1) (by decide)

/-! ## Claim C3: asymmetric treatment of the window edges -/

/-- C3: The merge step is asymmetric: a silence run starting at index 0 is
never reclassified as loud, whatever its extent (part 1), while a silence run
that ends at the very last index is reclassified whenever its extent is below
`min_quiet_time` (part 2). -/
theorem merge_edge_asymmetry (vals ts2 : List ℚ) (thr mq : ℚ) :
    (∀ t i, (0, t) ∈ trueRuns (silentMask vals thr) → i < t →
      (mergedNoise vals ts2 thr mq).getD i false = false)
    ∧ (∀ r : Nat × Nat, r ∈ trueRuns (silentMask vals thr) → r.1 ≠ 0 →
        r.2 = vals.length → ts2.getD (r.2 - 1) 0 - ts2.getD r.1 0 < mq →
        ∀ i, r.1 ≤ i → i < r.2 →
        (mergedNoise vals ts2 thr mq).getD i false = true) := by
  constructor
  · intro t i hmem hit
    unfold mergedNoise
    rw [mergeQuiet_untouched]
    · exact noiseMask_getD_false_of (trueRuns_mem_true hmem (Nat.zero_le i) hit)
    · intro q hq hq1 hq2
      left
      have hqr : q = (0, t) :=
        runsOrdered_unique (trueRuns_ordered _) hq hmem hq1 hq2 (Nat.zero_le i) hit
      rw [hqr]
  · intro r hmem hne hlast hlt i h1 h2
    unfold mergedNoise
    apply mergeQuiet_sets _ _ r hmem hne hlt h1 h2
    rw [noiseMask_length]
    omega

/-- C3 witness: with signal `[0, 1, 0]` and threshold `1/2` the leading
silence run `(0, 1)` is never merged (index 0 stays quiet), while the
trailing run `(2, 3)` ends at the last index and is merged anyway. -/
theorem merge_edge_asymmetry_witness :
    (mergedNoise [0, 1, 0] [1, 2, 3] (1/2) 5).getD 0 false = false
    ∧ (mergedNoise [0, 1, 0] [1, 2, 3] (1/2) 5).getD 2 false = true := by
  have hmask : silentMask [0, 1, 0] (1/2) = [true, false, true] := by
    norm_num [silentMask]
  constructor
  · exact (merge_edge_asymmetry [0, 1, 0] [1, 2, 3] (1/2) 5).1 1 0
      (by rw [hmask]; decide) (by decide)
  · exact (merge_edge_asymmetry [0, 1, 0] [1, 2, 3] (1/2) 5).2 (2, 3)
      (by rw [hmask]; decide) (by decide) (by decide) (by norm_num) 2
      (le_refl 2) (by decide)

/-! ## Claim C6: the threshold tie-break -/

/-- C6: A sample of the (sentinel-filtered, normalised, smoothed) signal that
is exactly equal to `noise_threshold` is marked neither loud nor quiet: both
masks are `false` at its index, hence it lies inside no noise run and no
silence run. -/
theorem threshold_tie_break (ts vs : List ℚ) (p : Params) (i : Nat)
    (h : (keptVals ts vs)[i]? = some p.noise_threshold) :
    (noiseMask (keptVals ts vs) p.noise_threshold).getD i false = false
    ∧ (silentMask (keptVals ts vs) p.noise_threshold).getD i false = false
    ∧ (∀ r : Nat × Nat,
        r ∈ trueRuns (noiseMask (keptVals ts vs) p.noise_threshold) →
        ¬(r.1 ≤ i ∧ i < r.2))
    ∧ (∀ r : Nat × Nat,
        r ∈ trueRuns (silentMask (keptVals ts vs) p.noise_threshold) →
        ¬(r.1 ≤ i ∧ i < r.2)) := by
  have hnoise : (noiseMask (keptVals ts vs) p.noise_threshold).getD i false = false := by
    unfold noiseMask
    rw [List.getD_eq_getElem?_getD, List.getElem?_map, h]
    simp
  have hsilent : (silentMask (keptVals ts vs) p.noise_threshold).getD i false = false := by
    unfold silentMask
    rw [List.getD_eq_getElem?_getD, List.getElem?_map, h]
    simp
  refine ⟨hnoise, hsilent, ?_, ?_⟩
  · intro r hr hin
    have := trueRuns_mem_true hr hin.1 hin.2
    rw [hnoise] at this
    cases this
  · intro r hr hin
    have := trueRuns_mem_true hr hin.1 hin.2
    rw [hsilent] at this
    cases this

/-- C6 witness: with one written slot holding exactly the threshold value,
the noise mask is `false` at index 0. -/
theorem threshold_tie_break_witness :
    (noiseMask (keptVals [1] [1/2]) ((⟨1, 1/2, 1, 1⟩ : Params).noise_threshold)).getD 0 false
      = false := by
  exact (threshold_tie_break [1] [1/2] ⟨1, 1/2, 1, 1⟩ 0 (by norm_num [keptVals])).1

/-! ## Claim C4: the minimum-duration filter -/

theorem extractBlocks_eq_filter (ts2 : List ℚ) (mn : ℚ) :
    ∀ rs : List (Nat × Nat),
      extractBlocks rs ts2 mn =
        (rs.filter fun r =>
          decide (mn ≤ ts2.getD (r.2 - 1) 0 - ts2.getD r.1 0)).map (blockOfRun ts2) := by
  intro rs
  induction rs with
  | nil => rfl
  | cons r0 rest ih =>
      unfold extractBlocks at ih ⊢
      rw [List.filterMap_cons, List.filter_cons]
      by_cases hc : ts2.getD (r0.2 - 1) 0 - ts2.getD r0.1 0 < mn
      · rw [if_pos hc, ih]
        have : decide (mn ≤ ts2.getD (r0.2 - 1) 0 - ts2.getD r0.1 0) = false :=
          decide_eq_false (not_le.mpr hc)
        rw [this]
        simp
      · rw [if_neg hc, ih]
        have : decide (mn ≤ ts2.getD (r0.2 - 1) 0 - ts2.getD r0.1 0) = true :=
          decide_eq_true (not_lt.mp hc)
        rw [this]
        simp

/-- C4: In the extraction step, the retained blocks are exactly those whose
maximal loud run has duration `time_stamps[stop-1] - time_stamps[start]` at
least `min_noise_time` — a strictly shorter run contributes no block, while a
run of duration exactly `min_noise_time` is retained. -/
theorem min_duration_filter (l : List Bool) (ts2 : List ℚ) (mn : ℚ) :
    (extractBlocks (trueRuns l) ts2 mn =
      ((trueRuns l).filter fun r =>
        decide (mn ≤ ts2.getD (r.2 - 1) 0 - ts2.getD r.1 0)).map (blockOfRun ts2))
    ∧ ∀ r ∈ trueRuns l, ts2.getD (r.2 - 1) 0 - ts2.getD r.1 0 = mn →
        blockOfRun ts2 r ∈ extractBlocks (trueRuns l) ts2 mn := by
  refine ⟨extractBlocks_eq_filter ts2 mn (trueRuns l), ?_⟩
  intro r hr hdur
  rw [extractBlocks_eq_filter ts2 mn (trueRuns l)]
  apply List.mem_map_of_mem
  rw [List.mem_filter]
  exact ⟨hr, decide_eq_true (le_of_eq hdur.symm)⟩

/-- C4 witness: a single loud sample at timestamp 5 forms the run `(0, 1)`
of duration `0 = min_noise_time`; its block is retained. -/
theorem min_duration_filter_witness :
    blockOfRun [5] (0, 1) ∈ extractBlocks (trueRuns [true]) [5] 0 := by
  exact (min_duration_filter [true] [5] 0).2 (0, 1) (by decide) (by norm_num)

/-! ## The current-state decision (lines 159-171) -/

theorem string_append_ne_empty (a b : String) (h : a.data ≠ []) : a ++ b ≠ "" := by
  intro he
  have hd : (a ++ b).data = "".data := congrArg String.data he
  rw [String.data_append] at hd
  simp only [String.data] at hd
  exact h (List.append_eq_nil.mp hd).1

theorem currentState_shape {cb : List CryingBlock} {ts2 : List ℚ} {mq now : ℚ}
    {pr : String × String} (h : currentState cb ts2 mq now = Except.ok pr) :
    (pr.1 = "" ∧ ∃ x, pr.2 = "Baby quiet for " ++ x)
    ∨ (pr.2 = "" ∧ ∃ x, pr.1 = "Baby noise for " ++ x) := by
  unfold currentState at h
  split at h
  · split at h
    · cases h
    · left
      cases h
      exact ⟨rfl, _, rfl⟩
  · split_ifs at h
    · right
      cases h
      exact ⟨rfl, _, rfl⟩
    · left
      cases h
      exact ⟨rfl, _, rfl⟩

theorem classifySegment_ok {ts vs : List ℚ} {p : Params} {now : ℚ} {res : SegResult}
    (h : classifySegment ts vs p now = Except.ok res) :
    currentState res.crying_blocks (keptTimes ts vs) p.min_quiet_time now
      = Except.ok (res.time_crying, res.time_quiet) := by
  simp only [classifySegment] at h
  split at h
  next e heq => cases h
  next tq heq =>
    injection h with h2
    subst h2
    exact heq

theorem currentState_spec {cb : List CryingBlock} {ts2 : List ℚ} {mq now : ℚ}
    {pr : String × String} (h : currentState cb ts2 mq now = Except.ok pr) :
    (cb.getLast? = none →
      pr.1 = "" ∧ ∃ t0, ts2.head? = some t0 ∧
        pr.2 = "Baby quiet for " ++ format_time_difference t0 now)
    ∧ (∀ lb, cb.getLast? = some lb →
        (now - lb.stop < mq →
          pr.1 = "Baby noise for " ++ format_time_difference lb.start now ∧ pr.2 = "")
        ∧ (mq ≤ now - lb.stop →
          pr.1 = "" ∧ pr.2 = "Baby quiet for " ++ format_time_difference lb.stop now)) := by
  unfold currentState at h
  split at h
  next heq =>
    split at h
    next => cases h
    next t0 hh =>
      injection h with h2
      subst h2
      constructor
      · intro _
        exact ⟨rfl, t0, hh, rfl⟩
      · intro lb hlb
        rw [heq] at hlb
        cases hlb
  next lb0 heq =>
    split_ifs at h with hc
    · injection h with h2
      subst h2
      constructor
      · intro hn
        rw [heq] at hn
        cases hn
      · intro lb hlb
        rw [heq] at hlb
        injection hlb with hlb
        subst hlb
        constructor
        · intro _
          exact ⟨rfl, rfl⟩
        · intro hge
          exact absurd hc (not_lt.mpr hge)
    · injection h with h2
      subst h2
      constructor
      · intro hn
        rw [heq] at hn
        cases hn
      · intro lb hlb
        rw [heq] at hlb
        injection hlb with hlb
        subst hlb
        constructor
        · intro hlt
          exact absurd hlt hc
        · intro _
          exact ⟨rfl, rfl⟩

/-! ## Claim C5: the current-state rule -/

/-- C5: For every successful response, if the retained-block list is empty
the state is "quiet" since the first retained timestamp; otherwise, writing
`lb` for the last retained block, the state is "noise" measured from
`lb.start` when `now - lb.stop < min_quiet_time`, and "quiet" since `lb.stop`
otherwise. -/
theorem current_state_rule (ts vs : List ℚ) (p : Params) (now : ℚ) (res : SegResult)
    (h : classifySegment ts vs p now = Except.ok res) :
    (res.crying_blocks.getLast? = none →
      res.time_crying = "" ∧ ∃ t0, (keptTimes ts vs).head? = some t0 ∧
        res.time_quiet = "Baby quiet for " ++ format_time_difference t0 now)
    ∧ (∀ lb, res.crying_blocks.getLast? = some lb →
        (now - lb.stop < p.min_quiet_time →
          res.time_crying = "Baby noise for " ++ format_time_difference lb.start now ∧
          res.time_quiet = "")
        ∧ (p.min_quiet_time ≤ now - lb.stop →
          res.time_crying = "" ∧
          res.time_quiet = "Baby quiet for " ++ format_time_difference lb.stop now)) :=
  currentState_spec (classifySegment_ok h)

/-- C5 witness: two loud samples at timestamps 1 and 2 yield one retained
block with stop 2; at `now = 3`, inside the hysteresis window, the state is
"noise" measured from the block's start. -/
theorem current_state_rule_witness :
    classifySegment [1, 2] [1, 1] ⟨1, 1/2, 10, 0⟩ 3 =
      Except.ok ⟨[⟨1, 2, format_time_difference 1 2⟩],
        "Baby noise for " ++ format_time_difference 1 3, ""⟩
    ∧ ("Baby noise for " ++ format_time_difference 1 3 : String) =
        "Baby noise for " ++ format_time_difference (1 : ℚ) 3 := by
  have h : classifySegment [1, 2] [1, 1] ⟨1, 1/2, 10, 0⟩ 3 =
      Except.ok ⟨[⟨1, 2, format_time_difference 1 2⟩],
        "Baby noise for " ++ format_time_difference 1 3, ""⟩ := by
    norm_num [classifySegment, keptVals, keptTimes, noiseMask, silentMask, trueRuns,
      trueRunsGo, mergedNoise, mergeQuiet, mergeStep, setRange, extractBlocks,
      blockOfRun, currentState, List.filter, List.getLast?, List.filterMap,
      List.getLast]
  refine ⟨h, ?_⟩
  exact (((current_state_rule [1, 2] [1, 1] ⟨1, 1/2, 10, 0⟩ 3 _ h).2
    ⟨1, 2, format_time_difference 1 2⟩ rfl).1 (by norm_num)).1

/-! ## Claim C7: empty history -/

/-- C7 (code bug): with no non-sentinel samples in the snapshot (every
timestamp is at most 0), any well-formed request makes the handler reach
`time_stamps[0]` on an empty array (line 166) and raise IndexError, instead
of the well-defined "quiet since start" result the specification requires. -/
theorem empty_history_crash (smooth : List ℚ → List ℚ) (ts rawAudio : List ℚ)
    (now : ℚ) (req : String → Option ℚ) (p : Params)
    (hreq : lookupParams req = Except.ok p) (hts : ∀ t ∈ ts, t ≤ 0) :
    handleRequest smooth ts rawAudio now req = Except.error SegError.indexError := by
  unfold handleRequest
  rw [hreq]
  have hfil : ((ts.zip (smooth (rawAudio.map fun a => a / p.upper_limit))).filter
      fun q => decide (0 < q.1)) = [] := by
    rw [List.filter_eq_nil_iff]
    intro q hq
    obtain ⟨a, b⟩ := q
    have ha := (List.of_mem_zip hq).1
    simp only [decide_eq_true_eq]
    exact not_lt.mpr (hts a ha)
  have hkt : keptTimes ts (smooth (rawAudio.map fun a => a / p.upper_limit)) = [] := by
    unfold keptTimes
    rw [hfil]
    rfl
  have hkv : keptVals ts (smooth (rawAudio.map fun a => a / p.upper_limit)) = [] := by
    unfold keptVals
    rw [hfil]
    rfl
  simp only [classifySegment, hkt, hkv]
  rfl

/-- C7 witness: a freshly initialised two-slot buffer (all timestamps 0) and
a request supplying every parameter: the handler raises IndexError. -/
theorem empty_history_crash_witness :
    handleRequest id [0, 0] [0, 0] 10 (fun _ => some 1) =
      Except.error SegError.indexError := by
  exact empty_history_crash id [0, 0] [0, 0] 10 (fun _ => some 1) ⟨1, 1, 1, 1⟩
    rfl (by norm_num)

/-! ## Claim C8: exactly one of the two state strings is non-empty -/

/-- C8: Every response actually produced by the query handler has exactly one
of `time_crying` / `time_quiet` non-empty: the other is the empty string. -/
theorem response_exactly_one_state (smooth : List ℚ → List ℚ) (ts rawAudio : List ℚ)
    (now : ℚ) (req : String → Option ℚ) (res : SegResult)
    (h : handleRequest smooth ts rawAudio now req = Except.ok res) :
    (res.time_crying = "" ∧ res.time_quiet ≠ "")
    ∨ (res.time_crying ≠ "" ∧ res.time_quiet = "") := by
  unfold handleRequest at h
  split at h
  next => cases h
  next p heq =>
    have hcs := classifySegment_ok h
    rcases currentState_shape hcs with ⟨h1, x, h2⟩ | ⟨h1, x, h2⟩
    · left
      refine ⟨h1, ?_⟩
      have h3 : res.time_quiet = "Baby quiet for " ++ x := h2
      rw [h3]
      exact string_append_ne_empty _ _ (by decide)
    · right
      constructor
      · have h3 : res.time_crying = "Baby noise for " ++ x := h2
        rw [h3]
        exact string_append_ne_empty _ _ (by decide)
      · exact h1

/-- C8 witness: a one-slot history below threshold yields a response whose
`time_quiet` is non-empty and whose `time_crying` is empty. -/
theorem response_exactly_one_state_witness :
    ((⟨[], "", "Baby quiet for " ++ format_time_difference 1 3⟩ : SegResult).time_crying = ""
      ∧ (⟨[], "", "Baby quiet for " ++ format_time_difference 1 3⟩ : SegResult).time_quiet ≠ "")
    ∨ ((⟨[], "", "Baby quiet for " ++ format_time_difference 1 3⟩ : SegResult).time_crying ≠ ""
      ∧ (⟨[], "", "Baby quiet for " ++ format_time_difference 1 3⟩ : SegResult).time_quiet = "") := by
  apply response_exactly_one_state id [1] [0] 3 (fun _ => some 1)
  norm_num [handleRequest, lookupParams, classifySegment, keptTimes, keptVals,
    noiseMask, silentMask, currentState, List.filter]

/-! ## Claim C9: malformed requests -/

/-- C9 (code bug): a request missing its parameter keys raises an uncaught
KeyError, which exits the `while True` serving loop: the server sends no
response and never serves the following well-formed request — even though
that same request, served alone, would succeed. The handler never mutates
shared state (it only reads a snapshot), but it does crash the server. -/
theorem malformed_request_kills_loop :
    serveLoop id [1] [0] 3 [fun _ => none, fun _ => some 1]
        = ([], some SegError.keyError)
    ∧ serveLoop id [1] [0] 3 [fun _ => some 1]
        = ([⟨[], "", "Baby quiet for " ++ format_time_difference 1 3⟩], none) := by
  constructor
  · rfl
  · norm_num [serveLoop, handleRequest, lookupParams, classifySegment, keptTimes,
      keptVals, noiseMask, silentMask, currentState, List.filter]

/-! ## Ring buffer lemmas -/

theorem rbAppend_pos_lt {cap : Nat} (hcap : 0 < cap) (st : RBState) (s : ℚ × ℤ) :
    (rbAppend cap st s).pos < cap :=
  Nat.mod_lt _ hcap

theorem add_mod_ne_self {p r cap : Nat} (hp : p < cap) (hr1 : 0 < r) (hr2 : r < cap) :
    (p + r) % cap ≠ p := by
  intro h
  rcases Nat.lt_or_ge (p + r) cap with hlt | hge
  · rw [Nat.mod_eq_of_lt hlt] at h
    omega
  · have h2 : p + r - cap < cap := by omega
    rw [Nat.mod_eq_sub_mod hge, Nat.mod_eq_of_lt h2] at h
    omega

theorem rbAppendAll_pos {cap : Nat} (hcap : 0 < cap) :
    ∀ (ss : List (ℚ × ℤ)) (st : RBState), st.pos < cap →
      (rbAppendAll cap st ss).pos = (st.pos + ss.length) % cap := by
  intro ss
  induction ss with
  | nil =>
      intro st h
      simp only [rbAppendAll, List.foldl_nil, List.length_nil, Nat.add_zero]
      exact (Nat.mod_eq_of_lt h).symm
  | cons s rest ih =>
      intro st h
      have h1 : rbAppendAll cap st (s :: rest) = rbAppendAll cap (rbAppend cap st s) rest := rfl
      rw [h1, ih (rbAppend cap st s) (rbAppend_pos_lt hcap st s)]
      show ((st.pos + 1) % cap + rest.length) % cap = (st.pos + (s :: rest).length) % cap
      rw [Nat.mod_add_mod, List.length_cons]
      congr 1
      omega

theorem rbAppendAll_untouched {cap : Nat} (hcap : 0 < cap) :
    ∀ (ss : List (ℚ × ℤ)) (st : RBState), st.pos < cap →
      ∀ j, (∀ k, k < ss.length → (st.pos + k) % cap ≠ j) →
        (rbAppendAll cap st ss).time j = st.time j
        ∧ (rbAppendAll cap st ss).audio j = st.audio j := by
  intro ss
  induction ss with
  | nil => intro st _ j _; exact ⟨rfl, rfl⟩
  | cons s rest ih =>
      intro st hst j hk
      have h0 : st.pos ≠ j := by
        have := hk 0 (by simp)
        simpa [Nat.mod_eq_of_lt hst] using this
      have hstep : (rbAppend cap st s).time j = st.time j
          ∧ (rbAppend cap st s).audio j = st.audio j := by
        unfold rbAppend
        exact ⟨Function.update_noteq (Ne.symm h0) _ _, Function.update_noteq (Ne.symm h0) _ _⟩
      have hcond : ∀ k, k < rest.length → ((rbAppend cap st s).pos + k) % cap ≠ j := by
        intro k hkl
        show ((st.pos + 1) % cap + k) % cap ≠ j
        rw [Nat.mod_add_mod]
        have := hk (k + 1) (by simp; omega)
        rw [show st.pos + (k + 1) = st.pos + 1 + k by omega] at this
        exact this
      have htail := ih (rbAppend cap st s) (rbAppend_pos_lt hcap st s) j hcond
      have e1 : rbAppendAll cap st (s :: rest) = rbAppendAll cap (rbAppend cap st s) rest := rfl
      rw [e1, htail.1, htail.2, hstep.1, hstep.2]
      exact ⟨rfl, rfl⟩

theorem rbAppendAll_fill {cap : Nat} (hcap : 0 < cap) :
    ∀ (ss : List (ℚ × ℤ)) (st : RBState), st.pos < cap → ss.length ≤ cap →
      ∀ k (d : ℚ × ℤ), k < ss.length →
        (rbAppendAll cap st ss).time ((st.pos + k) % cap) = (ss.getD k d).1
        ∧ (rbAppendAll cap st ss).audio ((st.pos + k) % cap) = (ss.getD k d).2 := by
  intro ss
  induction ss with
  | nil => intro st _ _ k d hk; cases hk
  | cons s rest ih =>
      intro st hst hlen k d hk
      have e1 : rbAppendAll cap st (s :: rest) = rbAppendAll cap (rbAppend cap st s) rest := rfl
      cases k with
      | zero =>
          have hcond : ∀ m, m < rest.length → ((rbAppend cap st s).pos + m) % cap ≠ st.pos := by
            intro m hm
            show ((st.pos + 1) % cap + m) % cap ≠ st.pos
            rw [Nat.mod_add_mod, show st.pos + 1 + m = st.pos + (1 + m) by omega]
            apply add_mod_ne_self hst (by omega)
            simp only [List.length_cons] at hlen
            omega
          have hunt := rbAppendAll_untouched hcap rest (rbAppend cap st s)
            (rbAppend_pos_lt hcap st s) st.pos hcond
          have hw1 : (rbAppend cap st s).time st.pos = s.1 := Function.update_same _ _ _
          have hw2 : (rbAppend cap st s).audio st.pos = s.2 := Function.update_same _ _ _
          rw [Nat.add_zero, Nat.mod_eq_of_lt hst, e1, hunt.1, hunt.2, hw1, hw2]
          exact ⟨rfl, rfl⟩
      | succ k' =>
          have hrec := ih (rbAppend cap st s) (rbAppend_pos_lt hcap st s)
            (by simp only [List.length_cons] at hlen; omega) k' d
            (by simp only [List.length_cons] at hk; omega)
          have hidx : ((rbAppend cap st s).pos + k') % cap = (st.pos + (k' + 1)) % cap := by
            show ((st.pos + 1) % cap + k') % cap = _
            rw [Nat.mod_add_mod]
            congr 1
            omega
          rw [e1, ← hidx]
          exact hrec

/-! ## Claim C2: ring-buffer wraparound -/

/-- C2: Starting from the fresh buffer, appending `cap + k` samples and then
rolling the snapshot by `cap - pos` (lines 95-98) recovers exactly the last
`cap` appended samples: position `i` of the rolled arrays holds sample
`k + i`, so index 0 is the oldest surviving sample and index `cap - 1` the
most recent, for every `k ≥ 0`. -/
theorem ring_buffer_wraparound (cap k : Nat) (hcap : 0 < cap) (ss : List (ℚ × ℤ))
    (hlen : ss.length = cap + k) (i : Nat) (hi : i < cap) (d : ℚ × ℤ) :
    npRoll cap (cap - (rbAppendAll cap rbInit ss).pos)
        (rbAppendAll cap rbInit ss).time i = (ss.getD (k + i) d).1
    ∧ npRoll cap (cap - (rbAppendAll cap rbInit ss).pos)
        (rbAppendAll cap rbInit ss).audio i = (ss.getD (k + i) d).2 := by
  have htake : (ss.take k).length = k := by
    rw [List.length_take]
    omega
  have hdrop : (ss.drop k).length = cap := by
    rw [List.length_drop]
    omega
  have hfold : rbAppendAll cap rbInit ss
      = rbAppendAll cap (rbAppendAll cap rbInit (ss.take k)) (ss.drop k) := by
    conv_lhs => rw [← List.take_append_drop k ss]
    unfold rbAppendAll
    rw [List.foldl_append]
  have hpos0 : (rbInit.pos : Nat) < cap := hcap
  have hpos1 : (rbAppendAll cap rbInit (ss.take k)).pos = k % cap := by
    rw [rbAppendAll_pos hcap _ rbInit hpos0, htake]
    simp [rbInit]
  have hpos1lt : (rbAppendAll cap rbInit (ss.take k)).pos < cap := by
    rw [hpos1]
    exact Nat.mod_lt _ hcap
  have hposf : (rbAppendAll cap rbInit ss).pos = k % cap := by
    rw [hfold, rbAppendAll_pos hcap _ _ hpos1lt, hpos1, hdrop, Nat.add_mod_right]
    exact Nat.mod_mod_of_dvd k dvd_rfl
  have hgd : (ss.drop k).getD i d = ss.getD (k + i) d := by
    rw [List.getD_eq_getElem?_getD, List.getD_eq_getElem?_getD, List.getElem?_drop]
  have hfill := rbAppendAll_fill hcap (ss.drop k) (rbAppendAll cap rbInit (ss.take k))
    hpos1lt (le_of_eq hdrop) i d (by omega)
  rw [hgd, hpos1] at hfill
  have hsh : (i + (cap - (cap - k % cap) % cap)) % cap = (k % cap + i) % cap := by
    rcases Nat.eq_zero_or_pos (k % cap) with h0 | hpos
    · rw [h0, Nat.sub_zero, Nat.mod_self, Nat.sub_zero, Nat.add_mod_right, Nat.zero_add]
    · have hr : k % cap < cap := Nat.mod_lt _ hcap
      have h1 : (cap - k % cap) % cap = cap - k % cap := Nat.mod_eq_of_lt (by omega)
      rw [h1]
      have h2 : cap - (cap - k % cap) = k % cap := by omega
      rw [h2, Nat.add_comm]
  constructor
  · show (rbAppendAll cap rbInit ss).time
        ((i + (cap - (cap - (rbAppendAll cap rbInit ss).pos) % cap)) % cap) = _
    rw [hposf, hsh, hfold]
    exact hfill.1
  · show (rbAppendAll cap rbInit ss).audio
        ((i + (cap - (cap - (rbAppendAll cap rbInit ss).pos) % cap)) % cap) = _
    rw [hposf, hsh, hfold]
    exact hfill.2

/-- C2 witness: capacity 2, three appended samples (`k = 1`): after rolling,
index 0 of the snapshot holds sample 1 (timestamp 2, amplitude 20). -/
theorem ring_buffer_wraparound_witness :
    npRoll 2 (2 - (rbAppendAll 2 rbInit [(1, 10), (2, 20), (3, 30)]).pos)
        (rbAppendAll 2 rbInit [(1, 10), (2, 20), (3, 30)]).time 0
      = (([(1, 10), (2, 20), (3, 30)] : List (ℚ × ℤ)).getD 1 (0, 0)).1
    ∧ npRoll 2 (2 - (rbAppendAll 2 rbInit [(1, 10), (2, 20), (3, 30)]).pos)
        (rbAppendAll 2 rbInit [(1, 10), (2, 20), (3, 30)]).audio 0
      = (([(1, 10), (2, 20), (3, 30)] : List (ℚ × ℤ)).getD 1 (0, 0)).2 :=
  ring_buffer_wraparound 2 1 (by decide) [(1, 10), (2, 20), (3, 30)] rfl 0 (by decide) (0, 0)

/-! ## Claim C10: the stored peak amplitude -/

theorem foldl_max_init_le : ∀ (l : List ℤ) (x : ℤ), x ≤ l.foldl max x := by
  intro l
  induction l with
  | nil => intro x; exact le_refl x
  | cons y ys ih => intro x; exact le_trans (le_max_left x y) (ih (max x y))

theorem le_foldl_max : ∀ (l : List ℤ) (x a : ℤ), a = x ∨ a ∈ l → a ≤ l.foldl max x := by
  intro l
  induction l with
  | nil =>
      intro x a h
      rcases h with h | h
      · exact le_of_eq h
      · cases h
  | cons y ys ih =>
      intro x a h
      show a ≤ ys.foldl max (max x y)
      rcases h with h | h
      · subst h
        exact le_trans (le_max_left a y) (foldl_max_init_le ys _)
      · rcases List.mem_cons.mp h with h2 | h2
        · subst h2
          exact le_trans (le_max_right x a) (foldl_max_init_le ys _)
        · exact ih (max x y) a (Or.inr h2)

theorem abs16_nonneg {x : ℤ} (h1 : -32768 ≤ x) (h2 : x ≤ 32767) (h3 : x ≠ -32768) :
    0 ≤ abs16 x := by
  unfold abs16 int16_wrap
  have ha : |x| ≤ 32767 := abs_le.mpr ⟨by omega, h2⟩
  have hb : 0 ≤ |x| := abs_nonneg x
  have hc : (|x| + 32768) % 65536 = |x| + 32768 := Int.emod_eq_of_lt (by omega) (by omega)
  rw [hc]
  omega

/-- C10 counterexample: a capture window all of whose int16 samples are
-32768 stores `np.abs(...).max() = -32768`, a negative amplitude, because
`np.abs` wraps `|-32768|` back to -32768 in int16. -/
theorem peak_amplitude_negative_counterexample :
    peakAmplitude [-32768, -32768] = some (-32768) ∧ (-32768 : ℤ) < 0 := by
  constructor
  · rfl
  · decide

/-- C10 (amended): the stored per-window peak amplitude is non-negative for
every in-range int16 window containing at least one sample other than
-32768; a window consisting entirely of -32768 samples wraps to the negative
value -32768. -/
theorem peak_amplitude_nonneg_amended (w : List ℤ)
    (hbound : ∀ x ∈ w, -32768 ≤ x ∧ x ≤ 32767)
    (hex : ∃ x ∈ w, x ≠ -32768) :
    peakAmplitude w ≠ none ∧ ∀ m, peakAmplitude w = some m → 0 ≤ m := by
  obtain ⟨e, he, hne⟩ := hex
  cases w with
  | nil => cases he
  | cons a as =>
      constructor
      · intro hcontra
        unfold peakAmplitude npMax at hcontra
        rw [List.map_cons] at hcontra
        cases hcontra
      · intro m hm
        unfold peakAmplitude npMax at hm
        rw [List.map_cons] at hm
        injection hm with hm
        have hnn : 0 ≤ abs16 e := abs16_nonneg (hbound e he).1 (hbound e he).2 hne
        have hle : abs16 e ≤ (as.map abs16).foldl max (abs16 a) := by
          apply le_foldl_max
          rcases List.mem_cons.mp he with h2 | h2
          · left
            rw [h2]
          · right
            exact List.mem_map_of_mem abs16 h2
        rw [← hm]
        exact le_trans hnn hle

/-- C10 amended witness: the window `[-32768, 5]` contains a sample other
than -32768, and its stored peak is non-negative. -/
theorem peak_amplitude_nonneg_amended_witness :
    peakAmplitude [-32768, 5] ≠ none ∧ (0 : ℤ) ≤ 5 := by
  have h := peak_amplitude_nonneg_amended [-32768, 5] (by decide) ⟨5, by decide, by decide⟩
  exact ⟨h.1, h.2 5 (by decide)⟩
